import Mathlib

/-!
Shallow embedding of `src/helix-core/src/selection.rs` (the multi-range
selection model of a text editor) and verification of its specification.

Modelling conventions:
* `usize` offsets become `Nat`; checked arithmetic that can panic (index out
  of bounds, `unwrap`, underflowing subtraction) is modelled by `Option`,
  with `none` standing for a panic.
* A rope slice of text is modelled as a `List Char`; the external rope
  collaborator's `char_to_byte` / `byte_to_char` conversions are modelled as
  UTF-8 size computations over that list.
* Rust's `sort_unstable_by_key(Range::from)` is modelled by
  `List.insertionSort` on the `from` key.  All concrete computations below
  use inputs with pairwise distinct `from` keys, where every comparison sort
  produces the same output, so the choice of sorting algorithm is immaterial
  there.
* The field `from` of the Rust API is called `from_` here (`from` is a Lean
  keyword).
-/

/-- `fn abs_difference(x: usize, y: usize) -> usize`. -/
def abs_difference (x y : Nat) : Nat :=
  if x < y then y - x else x - y

/-- `struct Range { anchor: usize, head: usize }`. -/
structure Range where
  anchor : Nat
  head : Nat
deriving DecidableEq, Repr

/-- `Range::from`: `min(anchor, head)`. -/
def Range.from_ (r : Range) : Nat := min r.anchor r.head

/-- `Range::to`: `max(anchor, head)`. -/
def Range.to (r : Range) : Nat := max r.anchor r.head

/-- `Range::is_empty`: head and anchor at the same position. -/
def Range.is_empty (r : Range) : Bool := r.anchor == r.head

/-- `Range::overlaps`. -/
def Range.overlaps (r other : Range) : Bool :=
  if r.is_empty then decide (r.from_ ≤ other.to) else decide (r.from_ < other.to)

/-- `Range::contains`. -/
def Range.contains (r : Range) (pos : Nat) : Bool :=
  if r.is_empty then false
  else if r.anchor < r.head then decide (r.anchor ≤ pos) && decide (pos < r.head)
  else decide (r.head < pos) && decide (pos ≤ r.anchor)

/-- `Range::extend`: cover at least `[f, t]`. -/
def Range.extend (r : Range) (f t : Nat) : Range :=
  if f ≤ r.anchor ∧ t ≥ r.anchor then
    { anchor := f, head := t }
  else
    { anchor := r.anchor,
      head := if abs_difference f r.anchor > abs_difference t r.anchor then f else t }

/-- `Range::fragment`: `text.slice(self.from()..self.to() + 1)`.  The rope
collaborator requires `to() + 1 <= text.len()`; on such in-bounds inputs this
drop/take composition is exactly that slice. -/
def Range.fragment (r : Range) (text : List Char) : List Char :=
  (text.drop r.from_).take (r.to + 1 - r.from_)

/-- `struct Selection { ranges: SmallVec<[Range; 1]>, primary_index: usize }`. -/
structure Selection where
  ranges : List Range
  primary_index : Nat
deriving DecidableEq, Repr

/-- `Selection::primary`: `self.ranges[self.primary_index]`; the indexing
panics when `primary_index` is out of bounds, modelled by `none`. -/
def Selection.primary (s : Selection) : Option Range :=
  s.ranges[s.primary_index]?

/-- `Iterator::position` of the Rust standard library, specialised to range
predicates as used in `normalize`. -/
def position (p : Range → Bool) : List Range → Option Nat
  | [] => none
  | r :: rest => if p r then some 0 else (position p rest).map (· + 1)

/-- The merge loop inside `normalize`.  The Rust loop keeps the last element
of `result` mutable (`result.last_mut()`); here that element is the `prev`
argument, finalised (consed onto the output) exactly when a non-overlapping
range is pushed after it.  The list carries the `enumerate` indices `i`; the
`i <= primary_index` decrement cannot underflow in Rust (it only fires for
`i >= 1`, hence `primary_index >= 1`), so `Nat` subtraction is faithful. -/
def mergeRanges : Range → List (Nat × Range) → Nat → List Range × Nat
  | prev, [], primary_index => ([prev], primary_index)
  | prev, (i, range) :: rest, primary_index =>
    if range.overlaps prev then
      let f := prev.from_
      let t := max range.to prev.to
      let pidx := if i ≤ primary_index then primary_index - 1 else primary_index
      let merged := if range.anchor > range.head then Range.mk t f else Range.mk f t
      mergeRanges merged rest pidx
    else
      let res := mergeRanges range rest primary_index
      (prev :: res.1, res.2)

/-- `fn normalize(ranges, primary_index)` inside `Selection::new`.  `none`
models a panic: the initial `ranges[primary_index]` indexing, or the
`position(..).unwrap()`.  The Rust locals `sorted` (the input sorted by
`from`) and the merge-loop result are inlined here.  The `[]` branch of the
match on the sorted list is unreachable (the indexing succeeded, so
`ranges` is nonempty). -/
def Selection.normalize (ranges : List Range) (primary_index : Nat) : Option Selection :=
  match ranges[primary_index]? with
  | none => none
  | some primary =>
    match position (fun range => range == primary)
        (List.insertionSort (fun a b => a.from_ ≤ b.from_) ranges) with
    | none => none
    | some q =>
      match List.insertionSort (fun a b => a.from_ ≤ b.from_) ranges with
      | [] => none
      | r0 :: rest =>
        some ⟨(mergeRanges r0 (List.enumFrom 1 rest) q).1,
          (mergeRanges r0 (List.enumFrom 1 rest) q).2⟩

/-- `Selection::new`: fast path for a single range (primary forced to 0,
with no bounds check on `primary_index`), otherwise `normalize`. -/
def Selection.new (ranges : List Range) (primary_index : Nat) : Option Selection :=
  if ranges.length = 1 then some ⟨ranges, 0⟩
  else Selection.normalize ranges primary_index

/-- `Selection::fragments`: one fragment per range, in `ranges()` order. -/
def Selection.fragments (s : Selection) (text : List Char) : List (List Char) :=
  s.ranges.map (fun r => r.fragment text)

/-- `Rope::char_to_byte`, modelled from the spec: the text-offset conversion
collaborator turns the character offset `i` into the byte offset of that
character in the UTF-8 encoding of the text. -/
def char_to_byte (text : List Char) (i : Nat) : Nat :=
  ((text.take i).map Char.utf8Size).sum

/-- `Rope::byte_to_char`, modelled from the spec: the inverse conversion,
mapping a byte offset to the index of the character containing it. -/
def byte_to_char : List Char → Nat → Nat
  | [], _ => 0
  | c :: rest, b => if b < c.utf8Size then 0 else 1 + byte_to_char rest (b - c.utf8Size)

/-- Maximal runs of whitespace in a fragment, as character-offset intervals
(start inclusive, end exclusive).  `i` is the index of the next character,
and `run` carries the start of the whitespace run currently being scanned. -/
def wsRunsGo : List Char → Nat → Option Nat → List (Nat × Nat)
  | [], _, none => []
  | [], i, some s => [(s, i)]
  | c :: rest, i, none =>
    if c.isWhitespace then wsRunsGo rest (i + 1) (some i) else wsRunsGo rest (i + 1) none
  | c :: rest, i, some s =>
    if c.isWhitespace then wsRunsGo rest (i + 1) (some s)
    else (s, i) :: wsRunsGo rest (i + 1) none

/-- Modelled from the spec: the external pattern matcher for the pattern
"one or more whitespace characters" (`\s+`).  It returns the finite, ordered,
non-overlapping sequence of matches over a fragment, each as byte start/end
offsets into the fragment's UTF-8 encoding. -/
def whitespaceMatches (fragment : List Char) : List (Nat × Nat) :=
  (wsRunsGo fragment 0 none).map (fun m => (char_to_byte fragment m.1, char_to_byte fragment m.2))

/-- The `for mat in regex.find_iter(..)` loop of `split_on_matches` for one
selection range: `mat` is a pair of byte offsets into the fragment, `start`
is the scan cursor (a character offset), `result` the accumulated output
vector.  `e` models the local `end` (`end` is a Lean keyword); the Rust code
computes `end - 1` in checked `usize` arithmetic, which panics when
`end == 0`, modelled by `none`.  Returns the final scan cursor and the
extended output. -/
def splitLoop (text : List Char) (start_byte : Nat) :
    List (Nat × Nat) → Nat → List Range → Option (Nat × List Range)
  | [], start, result => some (start, result)
  | mat :: rest, start, result =>
    let e := byte_to_char text (start_byte + mat.1)
    if e = 0 then none
    else splitLoop text start_byte rest (byte_to_char text (start_byte + mat.2))
      (result ++ [Range.mk start (e - 1)])

/-- The outer `for sel in selections.ranges()` loop of `split_on_matches`,
threading the shared `result` vector through every selection range. -/
def splitSels (matcher : List Char → List (Nat × Nat)) (text : List Char) :
    List Range → List Range → Option (List Range)
  | [], result => some result
  | sel :: sels, result =>
    let fragment := sel.fragment text
    let sel_start := sel.from_
    let sel_end := sel.to
    let start_byte := char_to_byte text sel_start
    match splitLoop text start_byte (matcher fragment) sel_start result with
    | none => none
    | some (start, result1) =>
      splitSels matcher text sels
        (if start ≤ sel_end then result1 ++ [Range.mk start sel_end] else result1)

/-- `fn split_on_matches(text, selections, regex)`; the external regex is
abstracted to any matcher producing byte-offset matches over a fragment. -/
def split_on_matches (matcher : List Char → List (Nat × Nat)) (text : List Char)
    (selections : Selection) : Option Selection :=
  match splitSels matcher text selections.ranges [] with
  | none => none
  | some result => Selection.new result 0

/-- The text of the pattern-split test. -/
def exampleText : List Char := "abcd efg wrs   xyz 123 456".data

/-! ### Basic facts about `Range` queries -/

theorem Range.from_le_to (r : Range) : r.from_ ≤ r.to := by
  simp only [Range.from_, Range.to]; omega

theorem Range.is_empty_true_iff (r : Range) : r.is_empty = true ↔ r.from_ = r.to := by
  simp only [Range.is_empty, Range.from_, Range.to, beq_iff_eq]; omega

theorem Range.overlaps_false_iff (a b : Range) :
    b.overlaps a = false ↔ (a.to ≤ b.from_ ∧ (b.is_empty = true → a.to ≠ b.from_)) := by
  unfold Range.overlaps
  split
  · next hb => simp [hb]; omega
  · next hb =>
    simp only [Bool.not_eq_true] at hb
    simp [hb]

theorem Range.overlaps_false_to_le (a b : Range) (h : b.overlaps a = false) :
    a.to ≤ b.from_ :=
  ((Range.overlaps_false_iff a b).mp h).1

theorem Range.overlaps_false_from_le (a b : Range) (h : b.overlaps a = false) :
    a.from_ ≤ b.from_ :=
  le_trans a.from_le_to (Range.overlaps_false_to_le a b h)

theorem Range.overlaps_false_trans (a b c : Range)
    (hab : b.overlaps a = false) (hbc : c.overlaps b = false) : c.overlaps a = false := by
  rw [Range.overlaps_false_iff] at hab hbc ⊢
  have h1 := b.from_le_to
  constructor
  · omega
  · intro hce
    have := hbc.2 hce
    omega

theorem Range.overlaps_self (r : Range) : r.overlaps r = true := by
  unfold Range.overlaps
  split
  · next hr =>
    rw [Range.is_empty_true_iff] at hr
    simp; omega
  · next hr =>
    simp only [Bool.not_eq_true, ← Bool.not_eq_true, Bool.not_eq_true] at hr
    have : ¬ (r.from_ = r.to) := fun hc => by rw [← Range.is_empty_true_iff] at hc; simp [hc] at hr
    have := r.from_le_to
    simp; omega

/-! ### Structure of the merge pass -/

theorem merged_from_to (range prev : Range) :
    ((if range.anchor > range.head then
        Range.mk (max range.to prev.to) prev.from_
      else Range.mk prev.from_ (max range.to prev.to)).from_ = prev.from_) ∧
    ((if range.anchor > range.head then
        Range.mk (max range.to prev.to) prev.from_
      else Range.mk prev.from_ (max range.to prev.to)).to = max range.to prev.to) := by
  have h := prev.from_le_to
  split <;> constructor <;> simp only [Range.from_, Range.to] at * <;> omega

theorem mergeRanges_cons (l : List (Nat × Range)) :
    ∀ (prev : Range) (pidx : Nat),
      ∃ hd tl, (mergeRanges prev l pidx).1 = hd :: tl ∧ hd.from_ = prev.from_ ∧
        prev.to ≤ hd.to ∧ List.Chain' (fun a b => b.overlaps a = false) (hd :: tl) := by
  induction l with
  | nil =>
    intro prev pidx
    exact ⟨prev, [], rfl, rfl, le_refl _, List.chain'_singleton prev⟩
  | cons pr rest ih =>
    intro prev pidx
    obtain ⟨i, range⟩ := pr
    by_cases hov : range.overlaps prev = true
    · simp only [mergeRanges, hov, if_true]
      have hft : prev.from_ ≤ max range.to prev.to := le_trans prev.from_le_to (le_max_right _ _)
      obtain ⟨hd, tl, heq, hfrom, hto, hchain⟩ :=
        ih (if range.anchor > range.head then
              Range.mk (max range.to prev.to) prev.from_
            else Range.mk prev.from_ (max range.to prev.to))
          (if i ≤ pidx then pidx - 1 else pidx)
      refine ⟨hd, tl, heq, ?_, ?_, hchain⟩
      · rw [hfrom, (merged_from_to range prev).1]
      · refine le_trans ?_ hto
        rw [(merged_from_to range prev).2]
        exact le_max_right _ _
    · have hov' : range.overlaps prev = false := by
        simpa using hov
      simp only [mergeRanges, hov', if_false, Bool.false_eq_true]
      obtain ⟨hd, tl, heq, hfrom, hto, hchain⟩ := ih range pidx
      refine ⟨prev, hd :: tl, by rw [heq], rfl, le_refl _, ?_⟩
      rw [List.chain'_cons]
      refine ⟨?_, hchain⟩
      rw [Range.overlaps_false_iff] at hov' ⊢
      rw [Range.is_empty_true_iff] at hov' ⊢
      have h1 := range.from_le_to
      have h2 := hd.from_le_to
      constructor <;> omega

theorem mergeRanges_length (l : List (Nat × Range)) :
    ∀ (prev : Range) (pidx : Nat), (mergeRanges prev l pidx).1.length ≤ 1 + l.length := by
  induction l with
  | nil => intro prev pidx; simp [mergeRanges]
  | cons pr rest ih =>
    intro prev pidx
    obtain ⟨i, range⟩ := pr
    by_cases hov : range.overlaps prev = true
    · simp only [mergeRanges, hov, if_true, List.length_cons]
      calc (mergeRanges _ rest _).1.length ≤ 1 + rest.length := ih _ _
      _ ≤ 1 + (rest.length + 1) := by omega
    · have hov' : range.overlaps prev = false := by simpa using hov
      simp only [mergeRanges, hov', if_false, Bool.false_eq_true, List.length_cons]
      have := ih range pidx
      omega

theorem mergeRanges_no_merge (l : List Range) :
    ∀ (prev : Range) (k pidx : Nat),
      List.Chain' (fun a b => b.overlaps a = false) (prev :: l) →
      mergeRanges prev (List.enumFrom k l) pidx = (prev :: l, pidx) := by
  induction l with
  | nil => intro prev k pidx _; rfl
  | cons range rest ih =>
    intro prev k pidx h
    rw [List.chain'_cons] at h
    simp only [List.enumFrom, mergeRanges, h.1, if_false, Bool.false_eq_true]
    rw [ih range (k + 1) pidx h.2]

theorem position_eq_some (a : Range) : ∀ (l : List Range) (n : Nat),
    l[n]? = some a → (∀ j, j < n → l[j]? ≠ some a) →
    position (fun r => r == a) l = some n := by
  intro l
  induction l with
  | nil => intro n h _; simp at h
  | cons x xs ih =>
    intro n h hj
    cases n with
    | zero =>
      rw [List.getElem?_cons_zero, Option.some.injEq] at h
      simp [position, h]
    | succ m =>
      have hx : ¬ ((x == a) = true) := by
        have h0 := hj 0 (Nat.succ_pos m)
        rw [List.getElem?_cons_zero] at h0
        simp only [beq_iff_eq]
        intro he
        exact h0 (by rw [he])
      rw [List.getElem?_cons_succ] at h
      simp only [position]
      rw [if_neg hx]
      rw [ih m h (fun j hjm => by
        have := hj (j + 1) (by omega)
        rwa [List.getElem?_cons_succ] at this)]
      rfl

/-- Every selection returned by the general constructor has its range
sequence linked by the non-overlap relation (each range does not overlap its
predecessor), and no longer than the input. -/
theorem new_some_spec (rs : List Range) (p : Nat) (S : Selection)
    (h : Selection.new rs p = some S) :
    List.Chain' (fun a b => b.overlaps a = false) S.ranges ∧
      S.ranges.length ≤ rs.length := by
  unfold Selection.new at h
  split at h
  · next h1 =>
    rw [Option.some.injEq] at h
    subst h
    obtain ⟨a, rfl⟩ := List.length_eq_one.mp h1
    exact ⟨List.chain'_singleton a, by simp⟩
  · next h1 =>
    unfold Selection.normalize at h
    split at h
    · exact Option.noConfusion h
    · next primary heq =>
      split at h
      · exact Option.noConfusion h
      · next q hq =>
        split at h
        · exact Option.noConfusion h
        · next r0 rest hs =>
          rw [Option.some.injEq] at h
          subst h
          obtain ⟨hd, tl, heq2, _, _, hchain⟩ :=
            mergeRanges_cons (List.enumFrom 1 rest) r0 q
          have hlen : rs.length = rest.length + 1 := by
            have hperm :=
              (List.perm_insertionSort (fun a b : Range => a.from_ ≤ b.from_) rs).length_eq
            rw [hs] at hperm
            simpa using hperm.symm
          constructor
          · show List.Chain' _ (mergeRanges r0 (List.enumFrom 1 rest) q).1
            rw [heq2]; exact hchain
          · show (mergeRanges r0 (List.enumFrom 1 rest) q).1.length ≤ rs.length
            have := mergeRanges_length (List.enumFrom 1 rest) r0 q
            rw [List.enumFrom_length] at this
            omega

/-- The non-overlap relation read by the merge pass (`later.overlaps(earlier) =
false`) is transitive, so the chain invariant upgrades to all pairs. -/
theorem new_some_pairwise (rs : List Range) (p : Nat) (S : Selection)
    (h : Selection.new rs p = some S) :
    List.Pairwise (fun a b => b.overlaps a = false) S.ranges :=
  (@List.chain'_iff_pairwise _ _
      ⟨fun a b c hab hbc => Range.overlaps_false_trans a b c hab hbc⟩ _).mp
    (new_some_spec rs p S h).1

/-- C1: the claim asserts `0 <= primary_index < ranges.len()` holds after
`Selection::new` for every in-bounds claimed primary, in particular when the
claimed primary is merged away.  The code violates this: on ranges
`(0,10),(1,2),(3,4)` with claimed primary index 2, the constructor returns a
single merged range with `primary_index = 1`, so `primary()` indexes out of
bounds (a panic, modelled by `none`). -/
theorem new_breaks_primary_index_invariant :
    Selection.new [Range.mk 0 10, Range.mk 1 2, Range.mk 3 4] 2 =
      some ⟨[Range.mk 0 10], 1⟩ ∧
    (Selection.mk [Range.mk 0 10] 1).primary = none ∧
    ¬ (Selection.mk [Range.mk 0 10] 1).primary_index <
        (Selection.mk [Range.mk 0 10] 1).ranges.length := by
  refine ⟨by decide, by decide, by decide⟩

/-- C2 counterexample: the claim demands that no two output ranges satisfy
`overlaps` in either order.  For input ranges `(0,2),(5,7)` (primary 0) the
constructor returns both ranges unchanged, yet the earlier one does overlap
the later one under `Range::overlaps`, whose asymmetric test
`self.from() < other.to()` holds for essentially any earlier/later pair. -/
theorem new_output_overlapping_pair :
    Selection.new [Range.mk 0 2, Range.mk 5 7] 0 =
      some ⟨[Range.mk 0 2, Range.mk 5 7], 0⟩ ∧
    (Range.mk 0 2).overlaps (Range.mk 5 7) = true := by
  refine ⟨by decide, by decide⟩

/-- C2 (amended): for every Selection built by `Selection::new`, `ranges()`
is ascending by `from()`, no range overlaps any EARLIER range (the
`later.overlaps(earlier)` direction, which is the orientation the merge pass
tests), and the output length is at most the input length. -/
theorem new_normalization_sound (rs : List Range) (p : Nat) (S : Selection)
    (h : Selection.new rs p = some S) :
    List.Pairwise (fun a b => a.from_ ≤ b.from_) S.ranges ∧
    List.Pairwise (fun a b => b.overlaps a = false) S.ranges ∧
    S.ranges.length ≤ rs.length := by
  have hpair := new_some_pairwise rs p S h
  exact ⟨hpair.imp (fun hab => Range.overlaps_false_from_le _ _ hab), hpair,
    (new_some_spec rs p S h).2⟩

/-- Witness for `new_normalization_sound` at a concrete input. -/
theorem new_normalization_sound_witness :
    Selection.new [Range.mk 0 2, Range.mk 5 7] 0 =
      some ⟨[Range.mk 0 2, Range.mk 5 7], 0⟩ ∧
    (List.Pairwise (fun a b => a.from_ ≤ b.from_) [Range.mk 0 2, Range.mk 5 7] ∧
     List.Pairwise (fun a b => b.overlaps a = false) [Range.mk 0 2, Range.mk 5 7] ∧
     ([Range.mk 0 2, Range.mk 5 7] : List Range).length ≤
       ([Range.mk 0 2, Range.mk 5 7] : List Range).length) :=
  ⟨by decide,
   new_normalization_sound [Range.mk 0 2, Range.mk 5 7] 0
     ⟨[Range.mk 0 2, Range.mk 5 7], 0⟩ (by decide)⟩

/-- C4 counterexample: the claim says the constructor panics on EVERY invalid
input, including exactly one range with an out-of-bounds `primary_index`.
But the single-range fast path returns before any check, so
`Selection::new([Range(0,5)], 7)` returns a value (with primary forced
to 0) instead of panicking. -/
theorem new_single_range_out_of_bounds_returns :
    Selection.new [Range.mk 0 5] 7 = some ⟨[Range.mk 0 5], 0⟩ ∧
    Selection.new [Range.mk 0 5] 7 ≠ none := by
  refine ⟨by decide, by decide⟩

/-- C4 (amended): `Selection::new` fails fast (panics, modelled `none`) when
given zero ranges, and when given an out-of-bounds `primary_index` together
with a range count other than one; with exactly one range it instead returns
immediately with the primary forced to 0, even for an out-of-bounds
`primary_index`. -/
theorem new_fail_fast_behavior (rs : List Range) (p : Nat) :
    (rs.length = 1 → Selection.new rs p = some ⟨rs, 0⟩) ∧
    (rs.length ≠ 1 → rs.length ≤ p → Selection.new rs p = none) := by
  constructor
  · intro h1
    unfold Selection.new
    rw [if_pos h1]
  · intro h1 hle
    unfold Selection.new
    rw [if_neg h1]
    unfold Selection.normalize
    rw [List.getElem?_eq_none hle]

/-- Witness for `new_fail_fast_behavior` at concrete inputs: the empty range
list panics. -/
theorem new_fail_fast_behavior_witness :
    ([] : List Range).length ≠ 1 ∧ ([] : List Range).length ≤ 0 ∧
    Selection.new [] 0 = none :=
  ⟨by decide, by decide, (new_fail_fast_behavior [] 0).2 (by decide) (by decide)⟩

/-- C5: the claim says a claimed primary that survives normalization unmerged
is returned by `primary()`.  The code violates this: on ranges
`(0,10),(1,2),(3,4),(5,6),(20,30),(40,50)` with claimed primary `(20,30)`
(index 4), range `(20,30)` survives unchanged at output position 1, but the
returned `primary_index` is 2, so `primary()` yields `(40,50)`.  The index
bookkeeping compares the loop position `i` (an index into the sorted input)
against `primary_index` (an index into the shrinking output), so it stops
decrementing too early once enough merges have happened. -/
theorem new_loses_surviving_primary :
    Selection.new [Range.mk 0 10, Range.mk 1 2, Range.mk 3 4, Range.mk 5 6,
        Range.mk 20 30, Range.mk 40 50] 4 =
      some ⟨[Range.mk 0 10, Range.mk 20 30, Range.mk 40 50], 2⟩ ∧
    Range.mk 20 30 ∈ [Range.mk 0 10, Range.mk 20 30, Range.mk 40 50] ∧
    (Selection.mk [Range.mk 0 10, Range.mk 20 30, Range.mk 40 50] 2).primary =
      some (Range.mk 40 50) ∧
    Range.mk 40 50 ≠ Range.mk 20 30 := by
  refine ⟨by decide, by decide, by decide, by decide⟩

/-- C3 counterexample: re-normalizing an output of the constructor can
change the primary index.  `Selection::new([(0,10),(1,2),(3,4)], 2)` yields
ranges `[(0,10)]` with (out-of-bounds) primary index 1; feeding that back in
takes the single-range fast path and forces the primary index to 0, so the
result differs from the original Selection. -/
theorem new_renormalization_changes_primary :
    Selection.new [Range.mk 0 10, Range.mk 1 2, Range.mk 3 4] 2 =
      some ⟨[Range.mk 0 10], 1⟩ ∧
    Selection.new [Range.mk 0 10] 1 = some ⟨[Range.mk 0 10], 0⟩ ∧
    (⟨[Range.mk 0 10], 0⟩ : Selection) ≠ ⟨[Range.mk 0 10], 1⟩ := by
  refine ⟨by decide, by decide, by decide⟩

/-- C3 (amended): for every Selection `S` produced by the general
constructor WHOSE PRIMARY INDEX IS IN BOUNDS (which the code does not always
guarantee, see the counterexample), `Selection::new(S.ranges, S.primary_index)`
returns `S` itself: identical range sequence and identical primary index. -/
theorem new_idempotent_on_valid_output (rs : List Range) (p : Nat) (S : Selection)
    (h : Selection.new rs p = some S)
    (hlt : S.primary_index < S.ranges.length) :
    Selection.new S.ranges S.primary_index = some S := by
  have hpair := new_some_pairwise rs p S h
  have hchain := (new_some_spec rs p S h).1
  rcases S with ⟨rgs, pidx⟩
  simp only at hpair hchain hlt
  show Selection.new rgs pidx = some ⟨rgs, pidx⟩
  by_cases hl : rgs.length = 1
  · have h0 : pidx = 0 := by omega
    unfold Selection.new
    rw [if_pos hl, h0]
  · have hsort : List.Sorted (fun a b : Range => a.from_ ≤ b.from_) rgs :=
      hpair.imp (fun hab => Range.overlaps_false_from_le _ _ hab)
    have hsorteq : List.insertionSort (fun a b : Range => a.from_ ≤ b.from_) rgs = rgs :=
      hsort.insertionSort_eq
    have huniq : ∀ j, j < pidx → rgs[j]? ≠ some rgs[pidx] := by
      intro j hj hcontra
      have hjlen : j < rgs.length := by omega
      rw [List.getElem?_eq_getElem hjlen, Option.some.injEq] at hcontra
      have hR := List.pairwise_iff_getElem.mp hpair j pidx hjlen hlt hj
      rw [hcontra, Range.overlaps_self] at hR
      exact Bool.noConfusion hR
    have hposition : position (fun r => r == rgs[pidx]) rgs = some pidx :=
      position_eq_some rgs[pidx] rgs pidx (List.getElem?_eq_getElem hlt) huniq
    unfold Selection.new
    rw [if_neg hl]
    unfold Selection.normalize
    split
    · next heq =>
      rw [List.getElem?_eq_getElem hlt] at heq
      exact Option.noConfusion heq
    · next primary heq =>
      have hprim : primary = rgs[pidx] := by
        rw [List.getElem?_eq_getElem hlt, Option.some.injEq] at heq
        exact heq.symm
      subst hprim
      split
      · next hqnone =>
        rw [hsorteq, hposition] at hqnone
        exact Option.noConfusion hqnone
      · next q hq =>
        rw [hsorteq, hposition, Option.some.injEq] at hq
        subst hq
        split
        · next hnil =>
          rw [hsorteq] at hnil
          subst hnil
          exact absurd hlt (by simp)
        · next r0 rest hcons =>
          rw [hsorteq] at hcons
          subst hcons
          rw [mergeRanges_no_merge rest r0 1 pidx hchain]

/-- Witness for `new_idempotent_on_valid_output` at a concrete input. -/
theorem new_idempotent_on_valid_output_witness :
    Selection.new [Range.mk 0 2, Range.mk 5 7] 0 =
      some ⟨[Range.mk 0 2, Range.mk 5 7], 0⟩ ∧
    (Selection.mk [Range.mk 0 2, Range.mk 5 7] 0).primary_index <
      (Selection.mk [Range.mk 0 2, Range.mk 5 7] 0).ranges.length ∧
    Selection.new (Selection.mk [Range.mk 0 2, Range.mk 5 7] 0).ranges
        (Selection.mk [Range.mk 0 2, Range.mk 5 7] 0).primary_index =
      some ⟨[Range.mk 0 2, Range.mk 5 7], 0⟩ :=
  ⟨by decide, by decide,
   new_idempotent_on_valid_output [Range.mk 0 2, Range.mk 5 7] 0
     ⟨[Range.mk 0 2, Range.mk 5 7], 0⟩ (by decide) (by decide)⟩

/-- C6: `contains` is false for cursors; for forward ranges it is
`anchor <= pos < head`; for backward ranges it is `head < pos <= anchor`;
and on the concrete ranges `(10,12)` and `(9,6)` it holds exactly on
`{10,11}` and `{7,8,9}` respectively. -/
theorem contains_characterization (r : Range) (pos : Nat) :
    (r.anchor = r.head → r.contains pos = false) ∧
    (r.anchor < r.head → (r.contains pos = true ↔ r.anchor ≤ pos ∧ pos < r.head)) ∧
    (r.head < r.anchor → (r.contains pos = true ↔ r.head < pos ∧ pos ≤ r.anchor)) ∧
    ((Range.mk 10 12).contains pos = true ↔ pos = 10 ∨ pos = 11) ∧
    ((Range.mk 9 6).contains pos = true ↔ pos = 7 ∨ pos = 8 ∨ pos = 9) := by
  refine ⟨?_, ?_, ?_, ?_, ?_⟩
  · intro h
    simp [Range.contains, Range.is_empty, h]
  · intro h
    unfold Range.contains Range.is_empty
    rw [if_neg (by simp; omega), if_pos h]
    simp
  · intro h
    unfold Range.contains Range.is_empty
    rw [if_neg (by simp; omega), if_neg (by omega)]
    simp
  · simp [Range.contains, Range.is_empty]
    omega
  · simp [Range.contains, Range.is_empty]
    omega

/-- Witness for `contains_characterization` on the forward range `(10,12)`. -/
theorem contains_characterization_witness :
    (Range.mk 10 12).anchor < (Range.mk 10 12).head ∧
    (Range.mk 10 12).contains 11 = true :=
  ⟨by decide,
   ((contains_characterization (Range.mk 10 12) 11).2.1 (by decide)).mpr (by decide)⟩

/-- C7: on a text of length at least `to() + 1`, `fragment` is the substring
covering character offsets `from()` through `to()` inclusive on both ends:
its length is `to() - from() + 1` and its `k`-th character is the text's
character at offset `from() + k`. -/
theorem fragment_inclusive_span (r : Range) (text : List Char)
    (h : r.to + 1 ≤ text.length) :
    (r.fragment text).length = r.to - r.from_ + 1 ∧
    (∀ k, k < r.to - r.from_ + 1 → (r.fragment text)[k]? = text[r.from_ + k]?) := by
  have hft := r.from_le_to
  constructor
  · simp only [Range.fragment, List.length_take, List.length_drop]
    omega
  · intro k hk
    simp only [Range.fragment, List.getElem?_take]
    rw [if_pos (by omega)]
    rw [List.getElem?_drop]

/-- Witness for `fragment_inclusive_span` at a concrete range and text. -/
theorem fragment_inclusive_span_witness :
    (Range.mk 1 3).to + 1 ≤ "abcde".data.length ∧
    ((Range.mk 1 3).fragment "abcde".data).length =
      (Range.mk 1 3).to - (Range.mk 1 3).from_ + 1 :=
  ⟨by decide, (fragment_inclusive_span (Range.mk 1 3) "abcde".data (by decide)).1⟩

/-- C8: for `f <= t`, `extend f t` resets to `{anchor: f, head: t}` when the
anchor already lies in `[f, t]`; otherwise it keeps the anchor and moves the
head to whichever bound is (strictly) farther from the anchor; and in all
cases the result covers `[f, t]`. -/
theorem extend_covers (r : Range) (f t : Nat) (hft : f ≤ t) :
    (f ≤ r.anchor → r.anchor ≤ t → r.extend f t = Range.mk f t) ∧
    (¬ (f ≤ r.anchor ∧ r.anchor ≤ t) →
      (r.extend f t).anchor = r.anchor ∧
      (abs_difference f r.anchor > abs_difference t r.anchor →
        (r.extend f t).head = f) ∧
      (abs_difference t r.anchor > abs_difference f r.anchor →
        (r.extend f t).head = t)) ∧
    (r.extend f t).from_ ≤ f ∧ t ≤ (r.extend f t).to := by
  refine ⟨?_, ?_, ?_, ?_⟩
  · intro h1 h2
    unfold Range.extend
    rw [if_pos ⟨h1, h2⟩]
  · intro h
    unfold Range.extend
    rw [if_neg h]
    refine ⟨rfl, ?_, ?_⟩
    · intro hgt
      show (if abs_difference f r.anchor > abs_difference t r.anchor then f else t) = f
      rw [if_pos hgt]
    · intro hgt
      show (if abs_difference f r.anchor > abs_difference t r.anchor then f else t) = t
      rw [if_neg (by omega)]
  · unfold Range.extend
    split
    · next h =>
      simp only [Range.from_]
      omega
    · next h =>
      simp only [Range.from_]
      split
      · next hd => omega
      · next hd =>
        simp only [abs_difference] at hd
        split_ifs at hd <;> omega
  · unfold Range.extend
    split
    · next h =>
      simp only [Range.to]
      omega
    · next h =>
      simp only [Range.to]
      split
      · next hd =>
        simp only [abs_difference] at hd
        split_ifs at hd <;> omega
      · next hd => omega

/-- Witness for `extend_covers` with the anchor inside the new span. -/
theorem extend_covers_witness :
    (2 : Nat) ≤ 5 ∧ 2 ≤ (Range.mk 3 3).anchor ∧ (Range.mk 3 3).anchor ≤ 5 ∧
    (Range.mk 3 3).extend 2 5 = Range.mk 2 5 :=
  ⟨by decide, by decide, by decide,
   (extend_covers (Range.mk 3 3) 2 5 (by decide)).1 (by decide) (by decide)⟩

/-- C9: the pattern-split example.  Splitting the text
`"abcd efg wrs   xyz 123 456"` with the selection built from ranges `(0,8)`
and `(10,19)` (primary 0) on the pattern "one or more whitespace characters"
yields exactly the ranges `(0,3),(5,7),(10,11),(15,17),(19,19)` with primary
index 0, whose fragments over that text are exactly
`["abcd","efg","rs","xyz","1"]`. -/
theorem split_on_matches_whitespace_example :
    Selection.new [Range.mk 0 8, Range.mk 10 19] 0 =
      some ⟨[Range.mk 0 8, Range.mk 10 19], 0⟩ ∧
    split_on_matches whitespaceMatches exampleText
        ⟨[Range.mk 0 8, Range.mk 10 19], 0⟩ =
      some ⟨[Range.mk 0 3, Range.mk 5 7, Range.mk 10 11, Range.mk 15 17,
        Range.mk 19 19], 0⟩ ∧
    Selection.fragments
        ⟨[Range.mk 0 3, Range.mk 5 7, Range.mk 10 11, Range.mk 15 17,
          Range.mk 19 19], 0⟩ exampleText =
      ["abcd".data, "efg".data, "rs".data, "xyz".data, "1".data] := by
  refine ⟨by decide, by decide, by decide⟩

/-- C10: when a pattern match begins exactly at the current scan position
(`byte_to_char(start_byte + mat.start()) = start`), the split loop still
pushes `Range::new(start, end - 1)`: for `start = 0` the subtraction
underflows and panics (modelled `none`); for `start > 0` it pushes the
one-character backward range `(start, start - 1)` whose head lies below its
anchor, instead of emitting no leading sub-range. -/
theorem splitLoop_match_at_scan_cursor (text : List Char) (start_byte ms me : Nat)
    (rest : List (Nat × Nat)) (start : Nat) (result : List Range)
    (h : byte_to_char text (start_byte + ms) = start) :
    (start = 0 → splitLoop text start_byte ((ms, me) :: rest) start result = none) ∧
    (0 < start →
      splitLoop text start_byte ((ms, me) :: rest) start result =
        splitLoop text start_byte rest (byte_to_char text (start_byte + me))
          (result ++ [Range.mk start (start - 1)]) ∧
      (Range.mk start (start - 1)).head < (Range.mk start (start - 1)).anchor) := by
  constructor
  · intro h0
    simp only [splitLoop, h]
    rw [if_pos h0]
  · intro hpos
    constructor
    · simp only [splitLoop, h]
      rw [if_neg (by omega)]
    · show start - 1 < start
      omega

/-- Witness for `splitLoop_match_at_scan_cursor`: on the text `" ab"` the
whitespace match starts at byte 0, the scan cursor is 0, and the loop
panics. -/
theorem splitLoop_match_at_scan_cursor_witness :
    byte_to_char " ab".data (0 + 0) = 0 ∧
    splitLoop " ab".data 0 [(0, 1)] 0 [] = none :=
  ⟨by decide,
   (splitLoop_match_at_scan_cursor " ab".data 0 0 1 [] 0 [] (by decide)).1 rfl⟩
